import Mathlib

/-!
Verification development for the Flow123d test-runner core
(`src/scripts/core/threads.py`, `src/scripts/runtest_module.py`).

The Python classes are shallowly embedded as follows.

* `ExtendedThread.run` (threads.py:44-49) together with the listener lists
  of its two events is embedded as a micro-step trace (`RunEv`, `runTrace`)
  over the observable task state `TaskObs` (`_is_over`, `_returncode`).
* `BinExecutor._run` (threads.py:95-103) and `BrokenProcess`
  (threads.py:106-114) are embedded by `binExecRun`: the try/except turns a
  spawn/wait fault into a `BrokenProcess` whose `returncode` is 666.
* `SequentialThreads._run` (threads.py:190-210) together with
  `MultiThreads.run_next` (threads.py:133-145) is embedded by `run_next`
  and the fuelled loop `seqLoop`/`seqStates` over `SeqState`.
* `ParallelThreads` (threads.py:213-246) with `MultiThreads`'s counters is
  embedded as an interleaved transition system `poolStep` over `PoolState`:
  the controller's admission (`ensure_run_count`/`run_next`), a started
  chain's start notification (`on_thread_start`, threads.py:168-172) and a
  chain's completion (`on_thread_complete`, threads.py:174-176 and 221-229)
  are separate atomic events, as they run on separate Python threads.
  `signal_handler` (threads.py:70-85) is the registry sweep.  Its
  `sys.exit(1)`, when reached from `on_thread_complete`, runs on the
  completing chain's worker thread, where CPython swallows the raised
  `SystemExit`: it ends that worker thread (which was finishing anyway)
  but not the process, so it changes no pool state and later events still
  occur.  Only `run_pbs_mode`'s `sys.exit` runs on the main thread and
  actually exits (see `pbsExitCode`).
* `run_pbs_mode`'s exit-code aggregation (runtest_module.py:160-162) is
  embedded by `pbsExitCode`.

Python-2 value semantics that matter are modelled explicitly: `None`
compares below every integer (so `max` over a dict containing `None`
ignores it), `None > 0` is `False`, and non-zero integers are truthy.
-/

namespace Flow

/-- A Python returncode slot: `None` until set, an integer afterwards. -/
abbrev PyRc := Option Int

/-- Python truthiness of a returncode (`if thread.returncode:`):
`None` and `0` are falsy, any other integer is truthy. -/
def rcTruthy : PyRc → Bool
  | none => false
  | some z => z != 0

/-- Python 2 comparison `rc > 0` where `rc` may be `None`
(`None > 0` is `False` in Python 2). -/
def rcGt0 : PyRc → Bool
  | none => false
  | some z => decide (0 < z)

/-- Python 2 `max` of two optional integers: `None` sorts below every int. -/
def py2Max (a b : PyRc) : PyRc :=
  match a, b with
  | none, b => b
  | some x, none => some x
  | some x, some y => some (max x y)

/-- Python 2 `max(values)` over a non-empty collection of optional ints;
`[]` is guarded at every call site (`if self.returncodes else None`). -/
def py2MaxList : List PyRc → PyRc
  | [] => none
  | x :: xs => xs.foldl py2Max x

/-- One entry of `BinExecutor.threads` as the interrupt sweep sees it:
whether `executor.process.is_running()` currently answers true, and whether
`ProcessUtils.secure_kill` has been requested for it.  `alive = false`
also covers the entries whose liveness check raises (the sweep swallows
those exceptions). -/
structure ProcInfo where
  alive : Bool
  killRequested : Bool
deriving DecidableEq, Repr

/-- `BinExecutor.signal_handler` (threads.py:70-85): best-effort sweep of the
registry - every still-live process gets a termination request, failures are
swallowed - then `sys.exit(1)` is invoked.  The pair's second component is
the status passed to `sys.exit`; whether that call terminates the process
depends on the calling thread: from the SIGINT handler (main thread) it
does, from `on_thread_complete` (a chain's worker thread) the `SystemExit`
is swallowed by the thread machinery and the process keeps running. -/
def signal_handler (reg : List ProcInfo) : List ProcInfo × Int :=
  (reg.map fun p => if p.alive then { p with killRequested := true } else p, 1)

/-- Lifecycle of one chain inside a `ParallelThreads` pool.
`admitted`: `thread.start()` was called by `run_next` but the chain's
thread has not yet run `on_start` (so `running` was not yet incremented);
`notified`: `on_thread_start` has fired and the chain has not completed. -/
inductive ChainPhase where
  | unadmitted
  | admitted
  | notified
  | completed
deriving DecidableEq, Repr

/-- The events of the interleaved pool semantics.  `admitChain` is one pass of
the controller's `ensure_run_count` that reaches `run_next`; the other two
are the notifications a chain's own thread delivers. -/
inductive PoolEv where
  | admitChain
  | notifyStart (c : Nat)
  | complete (c : Nat) (rc : PyRc)
deriving DecidableEq, Repr

/-- State of a `ParallelThreads` pool (threads.py:117-131 and 213-219) plus
the process registry. -/
structure PoolState where
  n : Nat
  total : Nat
  phases : List ChainPhase
  index : Nat
  running : Int
  stopped : Bool
  stop_on_error : Bool
  rcs : List PyRc
  reg : List ProcInfo
deriving DecidableEq, Repr

/-- One atomic event of the pool.

* `admitChain`: `ensure_run_count` (threads.py:231-239) - disabled once
  `stopped`, once `index >= total`, or while `running >= n`; otherwise it
  performs `run_next` (threads.py:133-145): `index += 1` and
  `threads[index-1].start()` (the chain becomes `admitted`; its own thread
  will deliver the start notification later).
* `notifyStart c`: chain `c`'s thread enters `run`, firing
  `on_thread_start` (threads.py:168-172): `running += 1`.
* `complete c rc`: chain `c` finishes with aggregate returncode `rc`;
  `ParallelThreads.on_thread_complete` (threads.py:221-229) first runs the
  superclass part (record the returncode, `running -= 1`) and then, if
  `stop_on_error` and the returncode is truthy, sets `stopped` and runs
  `signal_handler` - the registry sweep followed by `sys.exit(1)`.  That
  `sys.exit(1)` executes on the completing chain's worker thread: CPython
  swallows the `SystemExit` there, so the process does not exit and the
  remaining in-flight chains keep running and completing; only the
  `stopped` flag (never cleared, checked by `ensure_run_count` and
  `run_next`) prevents further admissions. -/
def poolStep (s : PoolState) : PoolEv → Option PoolState
  | .admitChain =>
    if s.stopped then none
    else if s.total ≤ s.index then none
    else if s.running < (s.n : Int) then
      some { s with index := s.index + 1, phases := s.phases.set s.index .admitted }
    else none
  | .notifyStart c =>
    if s.phases[c]? = some .admitted then
      some { s with phases := s.phases.set c .notified, running := s.running + 1 }
    else none
  | .complete c rc =>
    if s.phases[c]? = some .notified then
      let s1 := { s with phases := s.phases.set c .completed,
                         rcs := s.rcs.set c rc,
                         running := s.running - 1 }
      if s1.stop_on_error && rcTruthy rc then
        some { s1 with stopped := true, reg := (signal_handler s1.reg).1 }
      else some s1
    else none

/-- Run the pool along a schedule of events; `none` when some event was not
enabled at its point in the schedule. -/
def poolReach : PoolState → List PoolEv → Option PoolState
  | s, [] => some s
  | s, e :: evs =>
    match poolStep s e with
    | none => none
    | some s1 => poolReach s1 evs

/-- A freshly built pool: `ParallelThreads.__init__` with `total` chains
added via `MultiThreads.add` (threads.py:147-154). -/
def initPool (n total : Nat) (soe : Bool) (reg : List ProcInfo) : PoolState :=
  { n := n, total := total, phases := List.replicate total .unadmitted, index := 0,
    running := 0, stopped := false, stop_on_error := soe,
    rcs := List.replicate total none, reg := reg }

/-- Count of phases satisfying `p`. -/
def countPh (p : ChainPhase → Bool) : List ChainPhase → Nat
  | [] => 0
  | x :: xs => (if p x then 1 else 0) + countPh p xs

def phAdmitted : ChainPhase → Bool
  | .admitted => true
  | _ => false

def phNotified : ChainPhase → Bool
  | .notified => true
  | _ => false

def phInFlight : ChainPhase → Bool
  | .admitted => true
  | .notified => true
  | _ => false

/-- Chains admitted by the controller and not yet completed. -/
def countInFlight (s : PoolState) : Nat := countPh phInFlight s.phases

/-- `poolStep` restricted to the schedules the controller's 1-second
admission poll is banking on: a chain started by `run_next` delivers its
start notification (incrementing `running`) before any other event.
`admitChain` here is the `poolStep` admission immediately followed by the
admitted chain's `poolStep` start notification; the other events are
unchanged. -/
def poolStepA (s : PoolState) : PoolEv → Option PoolState
  | .admitChain =>
    match poolStep s .admitChain with
    | none => none
    | some s1 => poolStep s1 (.notifyStart s.index)
  | e => poolStep s e

def poolReachA : PoolState → List PoolEv → Option PoolState
  | s, [] => some s
  | s, e :: evs =>
    match poolStepA s e with
    | none => none
    | some s1 => poolReachA s1 evs

/-- The insertion positions of the chains the schedule starts, in the order
the controller starts them (`run_next` starts `threads[index - 1]`). -/
def admitsOf : PoolState → List PoolEv → List Nat
  | _, [] => []
  | s, e :: evs =>
    match poolStep s e with
    | none => []
    | some s1 =>
      match e with
      | .admitChain => s.index :: admitsOf s1 evs
      | _ => admitsOf s1 evs

theorem countPh_set (p : ChainPhase → Bool) (l : List ChainPhase) (i : Nat)
    (a v : ChainPhase) (h : l[i]? = some a) :
    countPh p (l.set i v) + (if p a then 1 else 0)
      = countPh p l + (if p v then 1 else 0) := by
  induction l generalizing i with
  | nil => simp at h
  | cons x xs ih =>
    cases i with
    | zero =>
      simp at h
      subst h
      simp [countPh]
      omega
    | succ j =>
      simp at h
      have := ih j h
      simp [countPh, List.set]
      omega

theorem countPh_eq_zero (p : ChainPhase → Bool) (l : List ChainPhase)
    (h : countPh p l = 0) (i : Nat) (a : ChainPhase) (ha : l[i]? = some a) :
    p a = false := by
  induction l generalizing i with
  | nil => simp at ha
  | cons x xs ih =>
    simp [countPh] at h
    cases i with
    | zero =>
      simp at ha
      subst ha
      by_contra hb
      simp [Bool.not_eq_false] at hb
      simp [hb] at h
    | succ j =>
      simp at ha
      exact ih (by omega) j ha

theorem countPh_pos (p : ChainPhase → Bool) (l : List ChainPhase) (i : Nat)
    (a : ChainPhase) (ha : l[i]? = some a) (hp : p a = true) :
    1 ≤ countPh p l := by
  induction l generalizing i with
  | nil => simp at ha
  | cons x xs ih =>
    cases i with
    | zero =>
      simp at ha
      subst ha
      simp [countPh, hp]
    | succ j =>
      simp at ha
      have := ih j ha
      simp [countPh]
      omega

theorem countPh_replicate (p : ChainPhase → Bool) (k : Nat) (x : ChainPhase) :
    countPh p (List.replicate k x) = if p x then k else 0 := by
  induction k with
  | zero => simp [countPh]
  | succ m ih =>
    rw [List.replicate_succ]
    simp [countPh, ih]
    split <;> omega

theorem countPh_inFlight (l : List ChainPhase) :
    countPh phInFlight l = countPh phAdmitted l + countPh phNotified l := by
  induction l with
  | nil => rfl
  | cons x xs ih =>
    cases x <;> simp [countPh, phInFlight, phAdmitted, phNotified, ih] <;> omega

/-- The inductive invariant of the pool under prompt start notifications:
no chain sits between `thread.start()` and its start notification, the
`running` counter counts exactly the RUNNING chains, and it never exceeds
the concurrency limit `n`. -/
structure PoolInv (s : PoolState) : Prop where
  len : s.phases.length = s.total
  noAdm : countPh phAdmitted s.phases = 0
  runEq : s.running = (countPh phNotified s.phases : Int)
  runLe : s.running ≤ (s.n : Int)
  tail : ∀ i a, s.index ≤ i → s.phases[i]? = some a → a = ChainPhase.unadmitted

theorem poolStep_admit_eq {s t : PoolState} (h : poolStep s .admitChain = some t) :
    s.stopped = false ∧ s.index < s.total
      ∧ s.running < (s.n : Int)
      ∧ t = { s with index := s.index + 1,
                     phases := s.phases.set s.index .admitted } := by
  simp only [poolStep] at h
  split_ifs at h with h1 h2 h3
  · exact ⟨by simpa using h1, by omega, h3, by exact (Option.some_inj.mp h).symm⟩

theorem poolStep_notify_eq {s t : PoolState} {c : Nat}
    (h : poolStep s (.notifyStart c) = some t) :
    s.phases[c]? = some .admitted
      ∧ t = { s with phases := s.phases.set c .notified,
                     running := s.running + 1 } := by
  simp only [poolStep] at h
  split_ifs at h with h1
  · exact ⟨h1, (Option.some_inj.mp h).symm⟩

theorem poolStep_complete_eq {s t : PoolState} {c : Nat} {rc : PyRc}
    (h : poolStep s (.complete c rc) = some t) :
    s.phases[c]? = some .notified
      ∧ t.phases = s.phases.set c .completed ∧ t.running = s.running - 1
      ∧ t.index = s.index ∧ t.n = s.n ∧ t.total = s.total
      ∧ t.stop_on_error = s.stop_on_error
      ∧ (t.stopped = s.stopped ∨ t.stopped = true) := by
  simp only [poolStep] at h
  split_ifs at h with h1 h2
  all_goals
    have ht := (Option.some_inj.mp h).symm
    subst ht
  · exact ⟨h1, rfl, rfl, rfl, rfl, rfl, rfl, Or.inr rfl⟩
  · exact ⟨h1, rfl, rfl, rfl, rfl, rfl, rfl, Or.inl rfl⟩

theorem poolInv_stepA {s t : PoolState} {e : PoolEv}
    (inv : PoolInv s) (h : poolStepA s e = some t) : PoolInv t ∧ t.n = s.n := by
  cases e with
  | admitChain =>
    simp only [poolStepA] at h
    cases hadm : poolStep s .admitChain with
    | none => rw [hadm] at h; exact absurd h (by simp)
    | some s1 =>
      rw [hadm] at h
      obtain ⟨hstop, hlt, hrun, hs1⟩ := poolStep_admit_eq hadm
      obtain ⟨hadm1, ht⟩ := poolStep_notify_eq h
      subst hs1
      subst ht
      have hlen : s.index < s.phases.length := by rw [inv.len]; exact hlt
      have hget : s.phases[s.index]? = some s.phases[s.index] :=
        List.getElem?_eq_getElem hlen
      have hun : s.phases[s.index] = ChainPhase.unadmitted :=
        inv.tail s.index _ le_rfl hget
      have hcadm := countPh_set phAdmitted s.phases s.index _ .notified hget
      have hcnot := countPh_set phNotified s.phases s.index _ .notified hget
      rw [hun] at hcadm hcnot
      simp [phAdmitted, phNotified] at hcadm hcnot
      refine ⟨⟨?_, ?_, ?_, ?_, ?_⟩, ?_⟩
      · simp [List.set_set, List.length_set, inv.len]
      · simp only [List.set_set]
        rw [hcadm]
        exact inv.noAdm
      · simp only [List.set_set]
        rw [hcnot, inv.runEq]
        push_cast
        ring
      · simp only []
        have := inv.runLe
        omega
      · intro i a hi ha
        simp only [] at hi
        simp only [List.set_set] at ha
        rw [List.getElem?_set_ne (by omega)] at ha
        exact inv.tail i a (by omega) ha
      · rfl
  | notifyStart c =>
    simp only [poolStepA] at h
    obtain ⟨hadm1, ht⟩ := poolStep_notify_eq h
    have := countPh_eq_zero phAdmitted s.phases inv.noAdm c _ hadm1
    simp [phAdmitted] at this
  | complete c rc =>
    simp only [poolStepA] at h
    obtain ⟨hnot, hph, hrun, hidx, hn, htot, hsoe, hstopd⟩ := poolStep_complete_eq h
    have hcadm := countPh_set phAdmitted s.phases c _ .completed hnot
    have hcnot := countPh_set phNotified s.phases c _ .completed hnot
    simp [phAdmitted, phNotified] at hcadm hcnot
    refine ⟨⟨?_, ?_, ?_, ?_, ?_⟩, hn⟩
    · rw [hph, List.length_set, inv.len, htot]
    · rw [hph, hcadm, inv.noAdm]
    · rw [hph, hrun, inv.runEq]
      have : 1 ≤ countPh phNotified s.phases := countPh_pos phNotified s.phases c _ hnot rfl
      omega
    · rw [hrun, hn]
      have := inv.runLe
      omega
    · intro i a hi ha
      rw [hidx] at hi
      have hne : c ≠ i := by
        intro hceq
        subst hceq
        have := inv.tail c _ hi hnot
        exact absurd this (by simp)
      rw [hph, List.getElem?_set_ne hne] at ha
      exact inv.tail i a hi ha

theorem poolInv_reachA {s t : PoolState} {evs : List PoolEv}
    (inv : PoolInv s) (h : poolReachA s evs = some t) : PoolInv t ∧ t.n = s.n := by
  induction evs generalizing s with
  | nil => simp [poolReachA] at h; rw [← h]; exact ⟨inv, rfl⟩
  | cons e evs ih =>
    simp only [poolReachA] at h
    cases hst : poolStepA s e with
    | none => rw [hst] at h; exact absurd h (by simp)
    | some s1 =>
      rw [hst] at h
      obtain ⟨inv1, hn1⟩ := poolInv_stepA inv hst
      obtain ⟨invT, hnT⟩ := ih inv1 h
      exact ⟨invT, by rw [hnT, hn1]⟩

theorem poolInv_init (n total : Nat) (soe : Bool) (reg : List ProcInfo) :
    PoolInv (initPool n total soe reg) := by
  refine ⟨by simp [initPool], ?_, ?_, by simp [initPool], ?_⟩
  · simp [initPool, countPh_replicate, phAdmitted]
  · simp [initPool, countPh_replicate, phNotified]
  · intro i a _ ha
    simp only [initPool, List.getElem?_replicate] at ha
    split at ha
    · exact (Option.some_inj.mp ha).symm
    · exact absurd ha (by simp)

/-- Claim C1 (amended): in the model of `ParallelThreads` where each chain
started by `run_next` delivers its start notification (the `running += 1` of
`on_thread_start`) before the controller's next admission check - the timing
the 1-second poll of `ParallelThreads._run` relies on - a pool with
concurrency limit N >= 1 never has more than N admitted-but-uncompleted
chains.  Without that timing assumption the ceiling can be exceeded (see the
counterexample). -/
theorem c1_pool_ceiling (n total : Nat) (soe : Bool) (reg : List ProcInfo)
    (evs : List PoolEv) (s : PoolState) (hn : 1 ≤ n)
    (h : poolReachA (initPool n total soe reg) evs = some s) :
    countInFlight s ≤ n := by
  obtain ⟨inv, hnEq⟩ := poolInv_reachA (poolInv_init n total soe reg) h
  have h1 := inv.runLe
  have h2 := inv.runEq
  rw [h2] at h1
  have h3 : countPh phNotified s.phases ≤ s.n := by exact_mod_cast h1
  have h4 : s.n = n := hnEq
  unfold countInFlight
  rw [countPh_inFlight, inv.noAdm]
  omega

def c1S : PoolState :=
  { n := 1, total := 1, phases := [.notified], index := 1, running := 1,
    stopped := false, stop_on_error := true, rcs := [none], reg := [] }

theorem c1_pool_ceiling_witness : countInFlight c1S ≤ 1 :=
  c1_pool_ceiling 1 1 true [] [PoolEv.admitChain] c1S (by decide) (by decide)

/-- Claim C1 as stated is false of the unsynchronized interleaving: with
N = 1 and two chains, if the first admitted chain's thread has not yet fired
its start notification when the controller polls again (`running` still 0),
`ensure_run_count` admits the second chain, and 2 > 1 chains are
admitted-but-uncompleted at once. -/
theorem c1_counterexample :
    (poolReach (initPool 1 2 true []) [PoolEv.admitChain, PoolEv.admitChain]).map countInFlight
      = some 2 ∧ ¬ (2 ≤ 1) := by decide

/-- `stopped` is never cleared, and `ensure_run_count`/`run_next` refuse
to admit while it is set, so from any stopped pool state the admission
cursor never moves again (other chains may still complete). -/
theorem poolReach_stopped (evs : List PoolEv) :
    ∀ s u : PoolState, s.stopped = true → poolReach s evs = some u →
      u.index = s.index ∧ u.stopped = true := by
  induction evs with
  | nil =>
    intro s u hs h
    simp only [poolReach, Option.some_inj] at h
    subst h
    exact ⟨rfl, hs⟩
  | cons e evs ih =>
    intro s u hs h
    simp only [poolReach] at h
    cases hst : poolStep s e with
    | none => rw [hst] at h; exact absurd h (by simp)
    | some s1 =>
      rw [hst] at h
      cases e with
      | admitChain =>
        simp [poolStep, hs] at hst
      | notifyStart c =>
        obtain ⟨hadm1, ht⟩ := poolStep_notify_eq hst
        have hs1 : s1.stopped = true := by rw [ht]; exact hs
        have hidx1 : s1.index = s.index := by rw [ht]
        obtain ⟨hi, hu⟩ := ih s1 u hs1 h
        exact ⟨by rw [hi, hidx1], hu⟩
      | complete c rc =>
        obtain ⟨hnot, hph, hrun, hidx, hn, htot, hsoe, hstopd⟩ :=
          poolStep_complete_eq hst
        have hs1 : s1.stopped = true := by
          rcases hstopd with hh | hh
          · rw [hh, hs]
          · exact hh
        obtain ⟨hi, hu⟩ := ih s1 u hs1 h
        exact ⟨by rw [hi, hidx], hu⟩

/-- `MultiThreads.returncode` applied to the pool itself (threads.py:160-162):
the aggregate over the chains' recorded returncodes.  After a fail-fast
abort the run winds down through `run_local_mode`, which returns
`runner.returncode` (runtest_module.py:226-228) - this aggregate, not any
fixed status, is what the failing run eventually exits with. -/
def poolReturncode (s : PoolState) : PyRc := py2MaxList s.rcs

/-- Claim C2 (amended): in fail-fast mode (`stop_on_error`), a chain
completing with a nonzero returncode makes
`ParallelThreads.on_thread_complete` set the `stopped` flag and run the
`signal_handler` sweep: every still-live registered child process gets a
termination request, and the sweep asks `sys.exit` for the fixed status 1.
That `sys.exit(1)` is raised on the completing chain's worker thread,
where the `SystemExit` is swallowed, so the whole run does not terminate
there: other in-flight chains keep completing (see the counterexample).
What holds instead of run termination is that no further chain is ever
admitted - `stopped` is never cleared, so along any continuation the
admission cursor stays put. -/
theorem c2_failfast (s t : PoolState) (c : Nat) (z : Int)
    (hsoe : s.stop_on_error = true) (hz : z ≠ 0)
    (h : poolStep s (.complete c (some z)) = some t) :
    t.stopped = true
    ∧ (∀ (i : Nat) (p : ProcInfo), s.reg[i]? = some p → p.alive = true →
        t.reg[i]? = some { alive := true, killRequested := true })
    ∧ (signal_handler s.reg).2 = 1
    ∧ (∀ evs u, poolReach t evs = some u →
        u.index = t.index ∧ u.stopped = true) := by
  simp only [poolStep] at h
  split_ifs at h with h1 h2
  · have ht := (Option.some_inj.mp h).symm
    subst ht
    refine ⟨rfl, ?_, rfl, ?_⟩
    · intro i p hp halive
      simp only [signal_handler, List.getElem?_map, hp, Option.map_some]
      cases p with
      | mk alive killReq =>
        simp only at halive
        subst halive
        simp
    · intro evs u hu
      exact poolReach_stopped evs _ u rfl hu
  · exact absurd (by simp [hsoe, rcTruthy, hz]) h2

def c2S : PoolState :=
  { n := 1, total := 1, phases := [.notified], index := 1, running := 1,
    stopped := false, stop_on_error := true, rcs := [none],
    reg := [{ alive := true, killRequested := false }] }

def c2T : PoolState :=
  { n := 1, total := 1, phases := [.completed], index := 1, running := 0,
    stopped := true, stop_on_error := true, rcs := [some 5],
    reg := [{ alive := true, killRequested := true }] }

theorem c2_failfast_witness :
    c2T.stopped = true
      ∧ c2T.reg[0]? = some { alive := true, killRequested := true }
      ∧ (signal_handler c2S.reg).2 = 1 := by
  have h := c2_failfast c2S c2T 0 5 (by decide) (by decide) (by decide)
  exact ⟨h.1, h.2.1 0 { alive := true, killRequested := false }
    (by decide) (by decide), h.2.2.1⟩

/-- Claim C2's "the whole run terminates with a fixed nonzero exit status;
no further chain is admitted after the failure" overstates what happens:
the `sys.exit(1)` raised inside `signal_handler` runs on the completing
chain's worker thread, where the `SystemExit` is swallowed, so the run
does not stop.  Concretely, in a two-chain pool with N = 2 where chain 0
completes with returncode 7, chain 1 still completes afterwards - a
further event occurs after the failure was observed - and the aggregate
the run eventually exits with (`run_local_mode` returns
`runner.returncode`) is 7, not the fixed 1. -/
theorem c2_counterexample :
    (poolReach (initPool 2 2 true [{ alive := true, killRequested := false }])
        [PoolEv.admitChain, PoolEv.notifyStart 0, PoolEv.admitChain,
         PoolEv.notifyStart 1, PoolEv.complete 0 (some 7),
         PoolEv.complete 1 (some 0)]).map
      (fun u => (u.phases, u.stopped, poolReturncode u))
      = some ([ChainPhase.completed, ChainPhase.completed], true, some 7)
    ∧ some (7 : Int) ≠ some (1 : Int) := by decide

theorem poolStep_index_le {s t : PoolState} {e : PoolEv}
    (h : poolStep s e = some t) : s.index ≤ t.index := by
  cases e with
  | admitChain => rw [(poolStep_admit_eq h).2.2.2]; simp
  | notifyStart c => rw [(poolStep_notify_eq h).2]
  | complete c rc => rw [(poolStep_complete_eq h).2.2.2.1]

theorem poolReach_index_le {s t : PoolState} {evs : List PoolEv}
    (h : poolReach s evs = some t) : s.index ≤ t.index := by
  induction evs generalizing s with
  | nil =>
    simp only [poolReach, Option.some_inj] at h
    subst h
    exact le_rfl
  | cons e evs ih =>
    simp only [poolReach] at h
    cases hst : poolStep s e with
    | none => rw [hst] at h; exact absurd h (by simp)
    | some s1 =>
      rw [hst] at h
      exact le_trans (poolStep_index_le hst) (ih h)

theorem admitsOf_range (evs : List PoolEv) (s t : PoolState)
    (h : poolReach s evs = some t) :
    admitsOf s evs = List.range' s.index (t.index - s.index) := by
  induction evs generalizing s with
  | nil =>
    simp [poolReach] at h
    rw [← h]
    simp [admitsOf]
  | cons e evs ih =>
    simp only [poolReach] at h
    cases hst : poolStep s e with
    | none => rw [hst] at h; exact absurd h (by simp)
    | some s1 =>
      rw [hst] at h
      have hle1 : s1.index ≤ t.index := poolReach_index_le h
      cases e with
      | admitChain =>
        have hidx : s1.index = s.index + 1 := by
          rw [(poolStep_admit_eq hst).2.2.2]
        simp only [admitsOf, hst]
        rw [ih s1 h, hidx]
        have : t.index - s.index = (t.index - (s.index + 1)) + 1 := by omega
        rw [this, List.range'_succ]
      | notifyStart c =>
        have hidx : s1.index = s.index := by rw [(poolStep_notify_eq hst).2]
        simp only [admitsOf, hst]
        rw [ih s1 h, hidx]
      | complete c rc =>
        have hidx : s1.index = s.index := (poolStep_complete_eq hst).2.2.2.1
        simp only [admitsOf, hst]
        rw [ih s1 h, hidx]

/-- Claim C8: chains of a `ParallelThreads` pool are started in exactly the
order they were inserted: along any schedule, the sequence of started chains
is the insertion positions `0, 1, ..., index - 1` in increasing order, so a
chain added earlier is started earlier. -/
theorem c8_insertion_order (n total : Nat) (soe : Bool) (reg : List ProcInfo)
    (evs : List PoolEv) (t : PoolState)
    (h : poolReach (initPool n total soe reg) evs = some t) :
    admitsOf (initPool n total soe reg) evs = List.range t.index
    ∧ (admitsOf (initPool n total soe reg) evs).Pairwise (· < ·) := by
  have hr := admitsOf_range evs _ t h
  have hr2 : admitsOf (initPool n total soe reg) evs = List.range t.index := by
    rw [hr]
    simp [initPool, List.range_eq_range']
  exact ⟨hr2, hr2 ▸ List.pairwise_lt_range _⟩

def c8T : PoolState :=
  { n := 2, total := 2, phases := [.admitted, .admitted], index := 2,
    running := 0, stopped := false, stop_on_error := true,
    rcs := [none, none], reg := [] }

theorem c8_insertion_order_witness :
    admitsOf (initPool 2 2 true []) [PoolEv.admitChain, PoolEv.admitChain] = List.range 2 :=
  (c8_insertion_order 2 2 true [] [PoolEv.admitChain, PoolEv.admitChain] c8T (by decide)).1

/-- The observable state of an `ExtendedThread` (threads.py:19-31):
`_is_over` and `_returncode`. -/
structure TaskObs where
  is_over : Bool
  returncode : PyRc
deriving DecidableEq, Repr

/-- `ExtendedThread.__init__`: `_is_over = True`, `_returncode = None`. -/
def taskInit : TaskObs := { is_over := true, returncode := none }

/-- `is_running()` (threads.py:54-55): `not self._is_over`. -/
def isRunningObs (st : TaskObs) : Bool := !st.is_over

/-- The micro-steps of `ExtendedThread.run` (threads.py:44-49), one per
source statement, with each listener invocation of the two events its own
step. -/
inductive RunEv where
  | setOver (b : Bool)
  | startCb (i : Nat)
  | body
  | completeCb (i : Nat)
deriving DecidableEq, Repr

/-- Modelled from the spec: `utils.events.Event` (not under src/) keeps its
listeners in an ordered list and, when fired, invokes them synchronously in
registration order.  The listeners of an event with `k` registrations fire
as positions `0, ..., k-1`. -/
def eventFiringOrder (k : Nat) : List Nat := List.range k

/-- The statement trace of `ExtendedThread.run` for a task with `kS`
registered start-listeners and `kC` registered complete-listeners:
`_is_over = False`; `on_start(self)`; `self._run()`; `_is_over = True`;
`on_complete(self)`. -/
def runTrace (kS kC : Nat) : List RunEv :=
  RunEv.setOver false ::
    ((eventFiringOrder kS).map RunEv.startCb
      ++ (RunEv.body :: RunEv.setOver true ::
            (eventFiringOrder kC).map RunEv.completeCb))

/-- Effect of one micro-step on the observable task state.  `eff` is what
the subclass's `_run` does to `_returncode`; listeners mutate the owning
chain or pool, never the task's own observable fields. -/
def applyEv (eff : PyRc → PyRc) (st : TaskObs) : RunEv → TaskObs
  | .setOver b => { st with is_over := b }
  | .body => { st with returncode := eff st.returncode }
  | _ => st

def applyAll (eff : PyRc → PyRc) : TaskObs → List RunEv → TaskObs
  | st, [] => st
  | st, e :: es => applyAll eff (applyEv eff st e) es

/-- Each event paired with the task state visible at the moment it fires. -/
def firings (eff : PyRc → PyRc) : TaskObs → List RunEv → List (RunEv × TaskObs)
  | _, [] => []
  | st, e :: es => (e, st) :: firings eff (applyEv eff st e) es

/-- For every complete-listener invocation, its registration position and
the `returncode` it observes. -/
def completeObs (eff : PyRc → PyRc) (st : TaskObs) (evs : List RunEv) :
    List (Nat × PyRc) :=
  (firings eff st evs).filterMap fun pr =>
    match pr.1 with
    | .completeCb i => some (i, pr.2.returncode)
    | _ => none

/-- For every start-listener invocation, its registration position and the
`is_running()` answer it observes. -/
def startRunObs (eff : PyRc → PyRc) (st : TaskObs) (evs : List RunEv) :
    List (Nat × Bool) :=
  (firings eff st evs).filterMap fun pr =>
    match pr.1 with
    | .startCb i => some (i, isRunningObs pr.2)
    | _ => none

/-- For every complete-listener invocation, its registration position and
the `is_running()` answer it observes. -/
def completeRunObs (eff : PyRc → PyRc) (st : TaskObs) (evs : List RunEv) :
    List (Nat × Bool) :=
  (firings eff st evs).filterMap fun pr =>
    match pr.1 with
    | .completeCb i => some (i, isRunningObs pr.2)
    | _ => none

/-- `ExtendedThread._run` for a task built with a plain `target`
(threads.py:32-34): the target is called, `_returncode` is never touched. -/
def targetEffect : PyRc → PyRc := fun rc => rc

/-- Result of the `psutil.Popen(...)` + `wait()` pair: an exit status on
success, the raised exception's message on failure. -/
structure PopenResult where
  returncode : Int
deriving DecidableEq, Repr

/-- `self.process` after `BinExecutor._run`'s try/except
(threads.py:95-103): the live process, or `BrokenProcess(e)`. -/
inductive PyProc where
  | popen (p : PopenResult)
  | broken (exc : String)
deriving DecidableEq, Repr

/-- `getattr(self.process, 'returncode', None)`: a finished `Popen` carries
its exit status; `BrokenProcess.returncode` is 666 (threads.py:110). -/
def PyProc.returncodeAttr : PyProc → PyRc
  | .popen p => some p.returncode
  | .broken _ => some 666

/-- The process `BinExecutor._run` ends up holding: the spawn/wait outcome,
with any exception caught and replaced by `BrokenProcess(e)`. -/
def binExecProcess (spawn : Except String PopenResult) : PyProc :=
  match spawn with
  | .ok p => .popen p
  | .error e => .broken e

/-- `BinExecutor._run` as seen by its caller `ExtendedThread.run`: the
try/except swallows the spawn fault, so the method always returns normally,
yielding the `returncode` it assigned. -/
def binExecRun (spawn : Except String PopenResult) : Except String PyRc :=
  Except.ok (binExecProcess spawn).returncodeAttr

/-- The `returncode` a `BinExecutor` ends with. -/
def binExecReturncode (spawn : Except String PopenResult) : PyRc :=
  (binExecProcess spawn).returncodeAttr

/-- `BinExecutor._run`'s effect on the returncode slot: it overwrites it
unconditionally. -/
def binExecEffect (spawn : Except String PopenResult) : PyRc → PyRc :=
  fun _ => binExecReturncode spawn

theorem applyAll_append (eff : PyRc → PyRc) (st : TaskObs) (a b : List RunEv) :
    applyAll eff st (a ++ b) = applyAll eff (applyAll eff st a) b := by
  induction a generalizing st with
  | nil => rfl
  | cons e es ih => simp [applyAll, ih]

theorem firings_append (eff : PyRc → PyRc) (st : TaskObs) (a b : List RunEv) :
    firings eff st (a ++ b) = firings eff st a ++ firings eff (applyAll eff st a) b := by
  induction a generalizing st with
  | nil => rfl
  | cons e es ih => simp [firings, applyAll, ih]

theorem applyAll_startCbs (eff : PyRc → PyRc) (st : TaskObs) (l : List Nat) :
    applyAll eff st (l.map RunEv.startCb) = st := by
  induction l with
  | nil => rfl
  | cons i l ih => simp [applyAll, applyEv, ih]

theorem firings_startCbs (eff : PyRc → PyRc) (st : TaskObs) (l : List Nat) :
    firings eff st (l.map RunEv.startCb) = l.map fun i => (RunEv.startCb i, st) := by
  induction l with
  | nil => rfl
  | cons i l ih => simp [firings, applyEv, ih]

theorem applyAll_completeCbs (eff : PyRc → PyRc) (st : TaskObs) (l : List Nat) :
    applyAll eff st (l.map RunEv.completeCb) = st := by
  induction l with
  | nil => rfl
  | cons i l ih => simp [applyAll, applyEv, ih]

theorem firings_completeCbs (eff : PyRc → PyRc) (st : TaskObs) (l : List Nat) :
    firings eff st (l.map RunEv.completeCb) = l.map fun i => (RunEv.completeCb i, st) := by
  induction l with
  | nil => rfl
  | cons i l ih => simp [firings, applyEv, ih]

theorem filterMap_all_none {α β : Type} (l : List α) :
    List.filterMap (fun _ => (none : Option β)) l = [] := by
  induction l with
  | nil => rfl
  | cons x xs ih => simp [List.filterMap_cons, ih]

theorem filterMap_all_some {α β : Type} (f : α → β) (l : List α) :
    List.filterMap (fun x => some (f x)) l = l.map f := by
  induction l with
  | nil => rfl
  | cons x xs ih => simp [List.filterMap_cons, ih]

/-- The firing list of a full `run`, segment by segment. -/
theorem firings_runTrace (eff : PyRc → PyRc) (kS kC : Nat) :
    firings eff taskInit (runTrace kS kC)
      = (RunEv.setOver false, taskInit)
        :: ((eventFiringOrder kS).map fun i =>
              (RunEv.startCb i, { is_over := false, returncode := none }))
        ++ ((RunEv.body, ({ is_over := false, returncode := none } : TaskObs))
        :: (RunEv.setOver true, ({ is_over := false, returncode := eff none } : TaskObs))
        :: ((eventFiringOrder kC).map fun i =>
              (RunEv.completeCb i, { is_over := true, returncode := eff none }))) := by
  simp only [runTrace, firings, applyEv, firings_append, applyAll_startCbs,
    firings_startCbs, applyAll, firings_completeCbs, taskInit]
  simp [List.cons_append]

theorem completeObs_runTrace (eff : PyRc → PyRc) (kS kC : Nat) :
    completeObs eff taskInit (runTrace kS kC)
      = (eventFiringOrder kC).map fun i => (i, eff none) := by
  simp only [completeObs, firings_runTrace]
  simp only [List.cons_append, List.filterMap_cons, List.filterMap_append,
    List.filterMap_map]
  simp only [Function.comp_def]
  rw [filterMap_all_none, filterMap_all_some]
  simp

theorem startRunObs_runTrace (eff : PyRc → PyRc) (kS kC : Nat) :
    startRunObs eff taskInit (runTrace kS kC)
      = (eventFiringOrder kS).map fun i => (i, true) := by
  simp only [startRunObs, firings_runTrace]
  simp only [List.cons_append, List.filterMap_cons, List.filterMap_append,
    List.filterMap_map]
  simp only [Function.comp_def, isRunningObs]
  rw [filterMap_all_some, filterMap_all_none]
  simp

theorem completeRunObs_runTrace (eff : PyRc → PyRc) (kS kC : Nat) :
    completeRunObs eff taskInit (runTrace kS kC)
      = (eventFiringOrder kC).map fun i => (i, false) := by
  simp only [completeRunObs, firings_runTrace]
  simp only [List.cons_append, List.filterMap_cons, List.filterMap_append,
    List.filterMap_map]
  simp only [Function.comp_def, isRunningObs]
  rw [filterMap_all_none, filterMap_all_some]
  simp

/-- Claim C4 (amended): completing a task fires each of its `kC` registered
complete-listeners exactly once, in registration order; for a process-backed
task (`BinExecutor`) every complete-listener observes a returncode that has
already been set (it is never `None`, whether the spawn succeeded or broke).
For a task backed by a plain `target`, however, `_run` never assigns
`returncode`, so the listeners observe `None` - see the counterexample. -/
theorem c4_complete_listeners (spawn : Except String PopenResult) (kS kC : Nat) :
    completeObs (binExecEffect spawn) taskInit (runTrace kS kC)
      = (eventFiringOrder kC).map (fun i => (i, binExecReturncode spawn))
    ∧ binExecReturncode spawn ≠ none := by
  constructor
  · rw [completeObs_runTrace]
    simp [binExecEffect]
  · cases spawn <;> simp [binExecReturncode, binExecProcess, PyProc.returncodeAttr]

theorem c4_complete_listeners_witness :
    completeObs (binExecEffect (Except.ok { returncode := 0 })) taskInit (runTrace 1 2)
      = [(0, some 0), (1, some 0)]
    ∧ binExecReturncode (Except.ok { returncode := 0 }) ≠ none := by
  have h := c4_complete_listeners (Except.ok { returncode := 0 }) 1 2
  exact ⟨by rw [h.1]; decide, h.2⟩

/-- Claim C4 as stated is false for a `Task` that is not process-backed: an
`ExtendedThread` running a plain `target` never assigns `_returncode`, so
its one complete-listener fires with `returncode` still `None`. -/
theorem c4_counterexample :
    completeObs targetEffect taskInit (runTrace 0 1) = [(0, none)]
    ∧ ¬ (∀ pr ∈ completeObs targetEffect taskInit (runTrace 0 1),
          pr.2.isSome = true) := by decide

/-- Claim C5: when the process spawn fails, `BinExecutor._run` returns
normally (the exception never reaches `ExtendedThread.run`), the task's
completion notification still fires each registered listener exactly once,
the final state is completed (`_is_over = True`), and the returncode is the
`BrokenProcess` sentinel 666: nonzero and outside the 0..255 range of
normal process exit statuses. -/
theorem c5_broken_process (e : String) (kS kC : Nat) :
    binExecRun (.error e) = Except.ok (some 666)
    ∧ completeObs (binExecEffect (.error e)) taskInit (runTrace kS kC)
        = (eventFiringOrder kC).map (fun i => (i, some 666))
    ∧ applyAll (binExecEffect (.error e)) taskInit (runTrace kS kC)
        = { is_over := true, returncode := some 666 }
    ∧ (255 : Int) < 666 ∧ (666 : Int) ≠ 0 := by
  refine ⟨rfl, ?_, ?_, by decide, by decide⟩
  · rw [completeObs_runTrace]
    rfl
  · simp only [runTrace, applyAll, applyEv, applyAll_append, applyAll_startCbs,
      applyAll_completeCbs, taskInit]
    rfl

theorem c5_broken_process_witness :
    binExecRun (.error "no such file") = Except.ok (some 666)
    ∧ completeObs (binExecEffect (.error "no such file")) taskInit (runTrace 0 1)
        = [(0, some 666)] :=
  ⟨(c5_broken_process "no such file" 0 1).1,
    by rw [(c5_broken_process "no such file" 0 1).2.1]; decide⟩

/-- Claim C10 (amended): a constructed, not-yet-started task answers
`is_over() = true`, `is_running() = false` and has `returncode = None`;
`is_running()` is `true` while every start-listener runs and `false` again
while every complete-listener runs, and `false` after `run` returns.  It
does not, however, become true only between the two notifications: `run`'s
first statement already sets it true, one step before the start
notification fires (see the counterexample). -/
theorem c10_lifecycle (eff : PyRc → PyRc) (kS kC : Nat) :
    taskInit.is_over = true ∧ isRunningObs taskInit = false
    ∧ taskInit.returncode = none
    ∧ startRunObs eff taskInit (runTrace kS kC)
        = (eventFiringOrder kS).map (fun i => (i, true))
    ∧ completeRunObs eff taskInit (runTrace kS kC)
        = (eventFiringOrder kC).map (fun i => (i, false))
    ∧ (applyAll eff taskInit (runTrace kS kC)).is_over = true
    ∧ isRunningObs (applyAll eff taskInit [RunEv.setOver false]) = true := by
  refine ⟨rfl, rfl, rfl, startRunObs_runTrace eff kS kC,
    completeRunObs_runTrace eff kS kC, ?_, rfl⟩
  simp only [runTrace, applyAll, applyEv, applyAll_append, applyAll_startCbs,
    applyAll_completeCbs]

/-- Claim C10 as stated is false at one observable point: after `run`'s
first statement (`_is_over = False`) and before any notification has fired,
`is_running()` already answers true - so it does not become true only
between the start and the completion notification. -/
theorem c10_counterexample :
    isRunningObs (applyAll targetEffect taskInit ((runTrace 1 1).take 1)) = true
    ∧ startRunObs targetEffect taskInit ((runTrace 1 1).take 1) = []
    ∧ completeRunObs targetEffect taskInit ((runTrace 1 1).take 1) = [] := by decide

/-- Execution status of one subtask thread of a chain: `pending` before
`start()`, `running` from `start()` until it finishes, `done` afterwards. -/
inductive TStat where
  | pending
  | running
  | done
deriving DecidableEq, Repr

/-- State of a `SequentialThreads` chain (threads.py:117-131, 184-188):
subtask statuses and recorded returncodes in insertion order, the cursor
`index`, and the `stopped` / `stop_on_error` flags. -/
structure SeqState where
  total : Nat
  status : List TStat
  rcs : List PyRc
  index : Nat
  stopped : Bool
  stop_on_error : Bool
deriving DecidableEq, Repr

/-- `MultiThreads.run_next` (threads.py:133-145): returns False when
`stopped` or no subtask remains; otherwise `index += 1` and
`threads[index - 1].start()` - the subtask is started, not waited for. -/
def run_next (s : SeqState) : Bool × SeqState :=
  if s.stopped then (false, s)
  else if s.total ≤ s.index then (false, s)
  else (true, { s with index := s.index + 1,
                       status := s.status.set s.index TStat.running })

/-- `self.current_thread.returncode` (threads.py:156-158): the returncode
of `threads[index - 1]`. -/
def currentRc (s : SeqState) : PyRc := s.rcs.getD (s.index - 1) none

/-- `self.current_thread.join()` followed by the subtask's
`on_thread_complete` (threads.py:174-176): the current subtask finishes
with the returncode `outcome` assigns it, which is recorded. -/
def joinCurrent (outcome : Nat → PyRc) (s : SeqState) : SeqState :=
  { s with status := s.status.set (s.index - 1) TStat.done,
           rcs := s.rcs.set (s.index - 1) (outcome (s.index - 1)) }

/-- The loop of `SequentialThreads._run` (threads.py:200-207), fuelled:
`run_next()`; if it returned False, stop; join the started subtask; if
`stop_on_error` and its returncode is `> 0`, set `stopped` and stop. -/
def seqLoop (outcome : Nat → PyRc) : Nat → SeqState → SeqState
  | 0, s => s
  | fuel + 1, s =>
    match run_next s with
    | (false, s1) => s1
    | (true, s1) =>
      let s2 := joinCurrent outcome s1
      if s2.stop_on_error && rcGt0 (currentRc s2) then { s2 with stopped := true }
      else seqLoop outcome fuel s2

/-- Every state the chain passes through while running the same loop:
the loop head, the state after `run_next` (subtask started, not joined),
the state after the join, and the state after setting `stopped`. -/
def seqStates (outcome : Nat → PyRc) : Nat → SeqState → List SeqState
  | 0, s => [s]
  | fuel + 1, s =>
    match run_next s with
    | (false, s1) => [s1]
    | (true, s1) =>
      let s2 := joinCurrent outcome s1
      if s2.stop_on_error && rcGt0 (currentRc s2) then
        s :: s1 :: s2 :: [{ s2 with stopped := true }]
      else s :: s1 :: seqStates outcome fuel s2

/-- A chain of `total` subtasks with `stop_on_error := soe`, none started. -/
def initSeq (total : Nat) (soe : Bool) : SeqState :=
  { total := total, status := List.replicate total TStat.pending,
    rcs := List.replicate total none, index := 0, stopped := false,
    stop_on_error := soe }

/-- Run `SequentialThreads._run` to completion (`total + 1` loop passes
always suffice: each True pass advances the cursor). -/
def seqRun (outcome : Nat → PyRc) (total : Nat) (soe : Bool) : SeqState :=
  seqLoop outcome (total + 1) (initSeq total soe)

/-- `MultiThreads.returncode` (threads.py:160-162):
`max(self.returncodes.values()) if self.returncodes else None`, under
Python 2's ordering where `None` sorts below every integer. -/
def chainReturncode (s : SeqState) : PyRc := py2MaxList s.rcs

/-- Claim C3 (amended): a `SequentialThreads` chain with
`stop_on_error = True` and subtask returncodes `[0, r, 0]` for positive `r`
never starts the third subtask, ends with `stopped` set right after the
second subtask finished (cursor at 2), and its aggregate returncode is the
failing subtask's `r`.  The source's halting test is `returncode > 0`
(threads.py:205), not "nonzero": a negative failing returncode does not
stop the chain - see the counterexample. -/
theorem c3_stop_on_positive (r : Int) (hr : 0 < r) :
    seqRun (fun i => [some 0, some r, some 0].getD i none) 3 true
      = { total := 3, status := [.done, .done, .pending],
          rcs := [some 0, some r, none], index := 2, stopped := true,
          stop_on_error := true }
    ∧ chainReturncode
        (seqRun (fun i => [some 0, some r, some 0].getD i none) 3 true)
      = some r := by
  have h : seqRun (fun i => [some 0, some r, some 0].getD i none) 3 true
      = { total := 3, status := [.done, .done, .pending],
          rcs := [some 0, some r, none], index := 2, stopped := true,
          stop_on_error := true } := by
    simp [seqRun, initSeq, seqLoop, run_next, joinCurrent, currentRc, rcGt0, hr]
  refine ⟨h, ?_⟩
  rw [h]
  simp only [chainReturncode, py2MaxList, List.foldl_cons, List.foldl_nil, py2Max]
  rw [max_eq_right hr.le]

theorem c3_stop_on_positive_witness :
    seqRun (fun i => [some 0, some 1, some 0].getD i none) 3 true
      = { total := 3, status := [.done, .done, .pending],
          rcs := [some 0, some 1, none], index := 2, stopped := true,
          stop_on_error := true }
    ∧ chainReturncode
        (seqRun (fun i => [some 0, some 1, some 0].getD i none) 3 true)
      = some 1 :=
  c3_stop_on_positive 1 (by decide)

/-- Claim C3 as stated is false for a nonzero but negative failing
returncode: with subtask returncodes `[0, -1, 0]` and
`stop_on_error = True`, `returncode > 0` (threads.py:205) never fires, so
the chain runs all three subtasks, never sets `stopped`, and aggregates to
`0`, not to the failing subtask's `-1`. -/
theorem c3_counterexample :
    seqRun (fun i => [some 0, some (-1), some 0].getD i none) 3 true
      = { total := 3, status := [.done, .done, .done],
          rcs := [some 0, some (-1), some 0], index := 3, stopped := false,
          stop_on_error := true }
    ∧ chainReturncode
        (seqRun (fun i => [some 0, some (-1), some 0].getD i none) 3 true)
      = some 0
    ∧ (some (0 : Int) ≠ some (-1 : Int)) := by decide

def countRunningT : List TStat → Nat
  | [] => 0
  | t :: ts => (if t = TStat.running then 1 else 0) + countRunningT ts

theorem countRunningT_append (a b : List TStat) :
    countRunningT (a ++ b) = countRunningT a + countRunningT b := by
  induction a with
  | nil => simp [countRunningT]
  | cons t ts ih => simp [countRunningT, ih]; omega

theorem countRunningT_replicate (k : Nat) (x : TStat) :
    countRunningT (List.replicate k x) = if x = TStat.running then k else 0 := by
  induction k with
  | zero => simp [countRunningT]
  | succ m ih =>
    rw [List.replicate_succ]
    simp [countRunningT, ih]
    split <;> omega

theorem set_replicate_append (k : Nat) (x v : TStat) (l : List TStat) :
    (List.replicate k x ++ l).set k v = List.replicate k x ++ l.set 0 v := by
  induction k with
  | zero => simp
  | succ m ih =>
    rw [List.replicate_succ]
    simp [List.set, ih]

theorem replicate_append_cons (k : Nat) (x : TStat) (l : List TStat) :
    List.replicate k x ++ x :: l = List.replicate (k + 1) x ++ l := by
  induction k with
  | zero => rfl
  | succ m ih =>
    rw [List.replicate_succ, List.replicate_succ]
    simp only [List.cons_append, ih]

/-- The loop-head invariant of the sequential chain: everything before the
cursor is finished, everything from the cursor on was never started. -/
def SeqShape (s : SeqState) : Prop :=
  s.status = List.replicate s.index TStat.done
      ++ List.replicate (s.total - s.index) TStat.pending
  ∧ s.index ≤ s.total

theorem run_next_true_eq {s s1 : SeqState} (h : run_next s = (true, s1)) :
    s.stopped = false ∧ s.index < s.total
    ∧ s1 = { s with index := s.index + 1,
                    status := s.status.set s.index TStat.running } := by
  simp only [run_next] at h
  split_ifs at h with h1 h2
  · exact absurd h (by simp)
  · exact absurd h (by simp)
  · simp only [Prod.mk.injEq] at h
    exact ⟨by simpa using h1, by omega, h.2.symm⟩

theorem run_next_false_eq {s s1 : SeqState} (h : run_next s = (false, s1)) :
    s1 = s ∧ (s.stopped = true ∨ s.total ≤ s.index) := by
  simp only [run_next] at h
  split_ifs at h with h1 h2
  · simp only [Prod.mk.injEq] at h
    exact ⟨h.2.symm, Or.inl h1⟩
  · simp only [Prod.mk.injEq] at h
    exact ⟨h.2.symm, Or.inr h2⟩
  · exact absurd h (by simp)

theorem seqStates_oneInFlight (outcome : Nat → PyRc) (fuel : Nat) :
    ∀ s : SeqState, SeqShape s →
      ∀ t ∈ seqStates outcome fuel s, countRunningT t.status ≤ 1 := by
  induction fuel with
  | zero =>
    intro s hs t ht
    simp only [seqStates, List.mem_singleton] at ht
    subst ht
    rw [hs.1, countRunningT_append, countRunningT_replicate, countRunningT_replicate]
    simp
  | succ m ih =>
    intro s hs t ht
    obtain ⟨hshape, hle⟩ := hs
    cases hrn : run_next s with
    | mk b s1 =>
      cases b with
      | false =>
        have hseq : seqStates outcome (m + 1) s = [s1] := by
          simp only [seqStates, hrn]
        rw [hseq] at ht
        simp only [List.mem_singleton] at ht
        subst ht
        rw [(run_next_false_eq hrn).1, hshape, countRunningT_append,
          countRunningT_replicate, countRunningT_replicate]
        simp
      | true =>
        obtain ⟨hstop, hlt, hs1⟩ := run_next_true_eq hrn
        have htot1 : s1.total = s.total := by rw [hs1]
        have hidx1 : s1.index = s.index + 1 := by rw [hs1]
        have hm : s.total - s.index = (s.total - (s.index + 1)) + 1 := by omega
        have hstat1 : s1.status = List.replicate s.index TStat.done
            ++ TStat.running :: List.replicate (s.total - (s.index + 1)) TStat.pending := by
          rw [hs1]
          simp only [hshape, hm, List.replicate_succ]
          rw [set_replicate_append]
          rfl
        have hcount1 : countRunningT s1.status = 1 := by
          rw [hstat1, countRunningT_append]
          simp [countRunningT, countRunningT_replicate]
        have hstat2 : (joinCurrent outcome s1).status
            = List.replicate (s.index + 1) TStat.done
              ++ List.replicate (s.total - (s.index + 1)) TStat.pending := by
          simp only [joinCurrent, hidx1, Nat.add_sub_cancel, hstat1]
          rw [set_replicate_append]
          simp only [List.set]
          rw [replicate_append_cons]
        have hshape2 : SeqShape (joinCurrent outcome s1) := by
          constructor
          · rw [hstat2]
            simp [joinCurrent, hidx1, htot1]
          · simp only [joinCurrent, hidx1, htot1]
            omega
        have hcount2 : countRunningT (joinCurrent outcome s1).status = 0 := by
          rw [hstat2, countRunningT_append, countRunningT_replicate,
            countRunningT_replicate]
          simp
        have hcountS : countRunningT s.status = 0 := by
          rw [hshape, countRunningT_append, countRunningT_replicate,
            countRunningT_replicate]
          simp
        have hseq : seqStates outcome (m + 1) s
            = if ((joinCurrent outcome s1).stop_on_error
                  && rcGt0 (currentRc (joinCurrent outcome s1))) = true then
                s :: s1 :: (joinCurrent outcome s1)
                  :: [{ joinCurrent outcome s1 with stopped := true }]
              else s :: s1 :: seqStates outcome m (joinCurrent outcome s1) := by
          simp only [seqStates, hrn]
        rw [hseq] at ht
        by_cases hc : ((joinCurrent outcome s1).stop_on_error
            && rcGt0 (currentRc (joinCurrent outcome s1))) = true
        · rw [if_pos hc] at ht
          simp only [List.mem_cons, List.mem_singleton, List.not_mem_nil,
            or_false] at ht
          rcases ht with rfl | rfl | rfl | rfl
          · omega
          · omega
          · omega
          · show countRunningT (joinCurrent outcome s1).status ≤ 1
            omega
        · rw [if_neg hc] at ht
          simp only [List.mem_cons] at ht
          rcases ht with rfl | rfl | ht
          · omega
          · omega
          · exact ih (joinCurrent outcome s1) hshape2 t ht


/-- Claim C7 (amended): `run_next()` admits the next subtask only when the
chain is not stopped and subtasks remain; it then advances the cursor by
one and starts exactly the subtask at the old cursor - but it returns
control with that subtask still in flight rather than waiting for it (see
the counterexample).  The waiting is done by the `SequentialThreads._run`
loop, which joins each started subtask before the next admission, so a
sequential chain has at most one subtask in flight at every point of its
execution. -/
theorem c7_run_next_serial (s : SeqState) (outcome : Nat → PyRc)
    (fuel total : Nat) (soe : Bool) :
    (∀ s1, run_next s = (true, s1) →
        s.stopped = false ∧ s.index < s.total
        ∧ s1 = { s with index := s.index + 1,
                        status := s.status.set s.index TStat.running })
    ∧ (∀ s1, run_next s = (false, s1) →
        s1 = s ∧ (s.stopped = true ∨ s.total ≤ s.index))
    ∧ (∀ t ∈ seqStates outcome fuel (initSeq total soe),
        countRunningT t.status ≤ 1) := by
  refine ⟨fun s1 h => run_next_true_eq h, fun s1 h => run_next_false_eq h, ?_⟩
  exact seqStates_oneInFlight outcome fuel (initSeq total soe)
    ⟨by simp [initSeq], by simp [initSeq]⟩

/-- Claim C7 as stated is false about the waiting: `run_next()` on a fresh
one-subtask chain returns True with the admitted subtask still `running`
(started, unfinished) - `thread.start()` does not block, and the join
happens in the caller's loop, not inside `run_next()`. -/
theorem c7_counterexample :
    (run_next (initSeq 1 true)).1 = true
    ∧ (run_next (initSeq 1 true)).2.status = [TStat.running]
    ∧ TStat.running ≠ TStat.done := by decide

/-- `run_pbs_mode` (runtest_module.py:160-162): the process's final exit
status - `max(returncodes.values()) if returncodes else 2` over the
finished jobs' returncodes. -/
def pbsExitCode (rcs : List Int) : Int :=
  match rcs with
  | [] => 2
  | x :: xs => xs.foldl max x

/-- Modelled from the spec: `finish_pbs_job` and `MultiJob`
(`scripts/pbs/job.py`, not under src/) reconcile every submitted job into a
finished returncode exactly once, jobs lost by the queue being finished as
failures on a later pass, and `run_pbs_mode`'s loop polls until no job is
left unfinished.  The finished returncodes of a run are therefore a list
covering all jobs, and each entry is a process exit status: a nonnegative
integer with 0 meaning success. -/
def FinishedRcs (rcs : List Int) : Prop := ∀ r ∈ rcs, 0 ≤ r

theorem foldl_max_mem (x : Int) (xs : List Int) :
    xs.foldl max x = x ∨ xs.foldl max x ∈ xs := by
  induction xs generalizing x with
  | nil => exact Or.inl rfl
  | cons y ys ih =>
    rw [List.foldl_cons]
    rcases ih (max x y) with h | h
    · rcases max_choice x y with hm | hm
      · exact Or.inl (by rw [h, hm])
      · exact Or.inr (by rw [h, hm]; exact List.mem_cons_self ..)
    · exact Or.inr (List.mem_cons_of_mem y h)

theorem le_foldl_max (x : Int) (xs : List Int) :
    x ≤ xs.foldl max x ∧ ∀ r ∈ xs, r ≤ xs.foldl max x := by
  induction xs generalizing x with
  | nil => exact ⟨le_rfl, by simp⟩
  | cons y ys ih =>
    obtain ⟨h1, h2⟩ := ih (max x y)
    rw [List.foldl_cons]
    refine ⟨le_trans (le_max_left x y) h1, ?_⟩
    intro r hr
    rcases List.mem_cons.mp hr with h | h
    · rw [h]
      exact le_trans (le_max_right x y) h1
    · exact h2 r h

/-- Claim C6: in PBS mode the process's final exit status is the maximum of
the finished jobs' returncodes (it is one of them and bounds them all); if
no job ever finished it is the distinct nonzero sentinel 2, so "nothing
completed" is distinguishable from "everything passed"; and - the finished
returncodes being process exit statuses (nonnegative) - the exit status is
0 exactly when at least one job finished and every finished job succeeded
with 0. -/
theorem c6_pbs_exit_code (rcs : List Int) :
    (rcs ≠ [] → pbsExitCode rcs ∈ rcs ∧ ∀ r ∈ rcs, r ≤ pbsExitCode rcs)
    ∧ (pbsExitCode [] = 2 ∧ (2 : Int) ≠ 0)
    ∧ (FinishedRcs rcs →
        (pbsExitCode rcs = 0 ↔ rcs ≠ [] ∧ ∀ r ∈ rcs, r = 0)) := by
  refine ⟨?_, ⟨rfl, by decide⟩, ?_⟩
  · intro hne
    cases rcs with
    | nil => exact absurd rfl hne
    | cons x xs =>
      constructor
      · rcases foldl_max_mem x xs with h | h
        · exact List.mem_cons.mpr (Or.inl h)
        · exact List.mem_cons.mpr (Or.inr h)
      · intro r hr
        rcases List.mem_cons.mp hr with h | h
        · exact h ▸ (le_foldl_max x xs).1
        · exact (le_foldl_max x xs).2 r h
  · intro hpos
    cases rcs with
    | nil => simp [pbsExitCode]
    | cons x xs =>
      constructor
      · intro h0
        refine ⟨by simp, ?_⟩
        intro r hr
        have hub : r ≤ pbsExitCode (x :: xs) := by
          rcases List.mem_cons.mp hr with h | h
          · exact h ▸ (le_foldl_max x xs).1
          · exact (le_foldl_max x xs).2 r h
        have := hpos r hr
        omega
      · rintro ⟨-, hall⟩
        have hmem : pbsExitCode (x :: xs) ∈ x :: xs := by
          rcases foldl_max_mem x xs with h | h
          · exact List.mem_cons.mpr (Or.inl h)
          · exact List.mem_cons.mpr (Or.inr h)
        exact hall _ hmem

/-- A Python value passed as the `n` argument of `ParallelThreads`. -/
inductive PyVal where
  | pyInt (i : Int)
  | pyBool (b : Bool)
  | pyNone
  | pyStr (s : String)
deriving DecidableEq, Repr

/-- Python's `type(n) is int`: true for plain ints only (a `bool` is of
type `bool`, `None` of `NoneType`, a string of `str`). -/
def typeIsInt : PyVal → Bool
  | .pyInt _ => true
  | _ => false

/-- `ParallelThreads.__init__` (threads.py:213-219):
`self.n = n if type(n) is int else 1`. -/
def parallelN (n : PyVal) : Int :=
  match n with
  | .pyInt i => i
  | _ => 1

/-- Claim C9 (amended): constructing a `ParallelThreads` with any
non-integer concurrency argument (None, a string, even a bool) yields the
effective limit 1, which is >= 1.  An integer argument, however, is taken
as-is, so the limit is not >= 1 regardless of the argument: an integer
below 1 (e.g. 0) is kept - see the counterexample. -/
theorem c9_non_int_limit (v : PyVal) (h : typeIsInt v = false) :
    parallelN v = 1 ∧ 1 ≤ parallelN v := by
  cases v <;> simp_all [parallelN, typeIsInt]

theorem c9_non_int_limit_witness :
    parallelN PyVal.pyNone = 1 ∧ 1 ≤ parallelN PyVal.pyNone :=
  c9_non_int_limit PyVal.pyNone (by decide)

/-- Claim C9's "well-formed with limit >= 1 regardless of the argument's
type" is false for the integer type: `ParallelThreads(0)` keeps the limit
0, which is below 1. -/
theorem c9_counterexample :
    typeIsInt (PyVal.pyInt 0) = true ∧ parallelN (PyVal.pyInt 0) = 0
    ∧ ¬ (1 ≤ parallelN (PyVal.pyInt 0)) := by decide

end Flow
